import Mathlib

/-!
# Verification of the gaia training-data pipeline

A shallow embedding of the core of the `gaia` repository:

* `gaia/simulate.py` — the scalar scheduler `lr_simulate` and the dense
  scheduler `unet_simulate`;
* `gaia/utils/simulators/MsprimeSimulator.py` — true-tract extraction
  (`_get_true_tracts`, `_simplify_ts`) and the tract-file writing in `run`;
* `gaia/utils/simulators/LRTrainingDataSimulator.py` — the label/feature
  record merge in `run`.

Pure fragments of the Python code are translated into Lean functions;
the external collaborators (msprime, tskit, pyranges, the process pool)
appear as explicit parameters or are modelled from the specification,
as flagged in the individual doc comments.
-/

/-! ## Python string ordering

Python compares strings lexicographically by Unicode code point.  We
embed that order on `List Char` (the character data of a `String`) as an
executable strict comparison. -/

/-- Strict lexicographic comparison of character lists by code point,
mirroring Python's `<` on strings. -/
def strLtAux : List Char → List Char → Bool
  | [], [] => false
  | [], _ :: _ => true
  | _ :: _, [] => false
  | a :: as, b :: bs =>
    if a.toNat < b.toNat then true
    else if b.toNat < a.toNat then false
    else strLtAux as bs

/-- Python's `<` on strings: lexicographic on the code points. -/
def strLtB (a b : String) : Bool := strLtAux a.data b.data

theorem strLtAux_irrefl (l : List Char) : strLtAux l l = false := by
  induction l with
  | nil => rfl
  | cons a as ih => simp [strLtAux, ih]

theorem strLtAux_trans : ∀ {a b c : List Char},
    strLtAux a b = true → strLtAux b c = true → strLtAux a c = true
  | [], [], _, h, _ => by simp [strLtAux] at h
  | [], _ :: _, [], _, h => by simp [strLtAux] at h
  | [], _ :: _, _ :: _, _, _ => by simp [strLtAux]
  | _ :: _, [], _, h, _ => by simp [strLtAux] at h
  | _ :: _, _ :: _, [], _, h => by simp [strLtAux] at h
  | a :: as, b :: bs, c :: cs, hab, hbc => by
    simp only [strLtAux] at hab hbc ⊢
    split_ifs at hab hbc ⊢ with h1 h2 h3 h4 h5 h6 <;>
      first
      | rfl
      | omega
      | (exact strLtAux_trans hab hbc)

theorem strLtAux_asymm : ∀ {a b : List Char},
    strLtAux a b = true → strLtAux b a = false
  | [], [], h => by simp [strLtAux] at h
  | [], _ :: _, _ => by simp [strLtAux]
  | _ :: _, [], h => by simp [strLtAux] at h
  | a :: as, b :: bs, h => by
    simp only [strLtAux] at h ⊢
    split_ifs at h ⊢ with h1 h2 h3 h4 <;>
      first
      | rfl
      | omega
      | (exact strLtAux_asymm h)

theorem strLtAux_eq_of_not_lt : ∀ {a b : List Char},
    strLtAux a b = false → strLtAux b a = false → a = b
  | [], [], _, _ => rfl
  | [], _ :: _, h, _ => by simp [strLtAux] at h
  | _ :: _, [], _, h => by simp [strLtAux] at h
  | a :: as, b :: bs, hab, hba => by
    simp only [strLtAux] at hab hba
    split_ifs at hab hba with h1 h2 h3 h4 <;> try omega
    have hval : a.toNat = b.toNat := by omega
    have hchar : a = b := Char.ext (UInt32.ext hval)
    subst hchar
    exact congrArg (a :: ·) (strLtAux_eq_of_not_lt hab hba)

theorem strLtB_eq_of_not_lt {a b : String} (hab : strLtB a b = false)
    (hba : strLtB b a = false) : a = b := by
  cases a with
  | mk da => cases b with
    | mk db =>
      have : da = db := strLtAux_eq_of_not_lt hab hba
      simp [this]

/-! ## Feature records and the scheduler sort key

`lr_simulate` sorts feature records with
`key=lambda x: (x["Replicate"], x["Chromosome"], x["Start"], x["End"], x["Sample"])`.
A record is a dictionary `{Replicate, Chromosome, Start, End, Sample, Label,
feature values...}`; the feature values travel opaquely. -/

/-- A feature record as accumulated by `lr_simulate`: the five sort-key
fields, the binary label, and the opaque feature values. -/
structure FeatureRecord where
  replicate : Nat
  chromosome : String
  start : Nat
  stop : Nat
  sample : String
  label : Nat
  values : List Int
deriving DecidableEq, Repr

/-- The Python sort key `(Replicate, Chromosome, Start, End, Sample)`. -/
def keyOf (r : FeatureRecord) : Nat × String × Nat × Nat × String :=
  (r.replicate, r.chromosome, r.start, r.stop, r.sample)

/-- Python's tuple comparison on the sort keys: lexicographic over the
five components, strings compared by code point. -/
def recLe (a b : FeatureRecord) : Prop :=
  if a.replicate = b.replicate then
    if a.chromosome = b.chromosome then
      if a.start = b.start then
        if a.stop = b.stop then strLtB b.sample a.sample = false
        else a.stop < b.stop
      else a.start < b.start
    else strLtB a.chromosome b.chromosome = true
  else a.replicate < b.replicate

instance : DecidableRel recLe := fun a b => by
  unfold recLe; infer_instance

theorem strLtB_lt_total {a b : String} (h : a ≠ b) :
    strLtB a b = true ∨ strLtB b a = true := by
  by_cases hab : strLtB a b = true
  · left; exact hab
  · right
    rw [Bool.not_eq_true] at hab
    by_cases hba : strLtB b a = true
    · exact hba
    · rw [Bool.not_eq_true] at hba
      exact absurd (strLtB_eq_of_not_lt hab hba) h

theorem strLtB_le_total (a b : String) :
    strLtB b a = false ∨ strLtB a b = false := by
  by_cases hab : strLtB a b = true
  · left; exact strLtAux_asymm hab
  · right; rw [Bool.not_eq_true] at hab; exact hab

theorem recLe_total (a b : FeatureRecord) : recLe a b ∨ recLe b a := by
  unfold recLe
  by_cases h1 : a.replicate = b.replicate
  · rw [if_pos h1, if_pos h1.symm]
    by_cases h2 : a.chromosome = b.chromosome
    · rw [if_pos h2, if_pos h2.symm]
      by_cases h3 : a.start = b.start
      · rw [if_pos h3, if_pos h3.symm]
        by_cases h4 : a.stop = b.stop
        · rw [if_pos h4, if_pos h4.symm]
          exact strLtB_le_total a.sample b.sample
        · rw [if_neg h4, if_neg (fun h => h4 h.symm)]
          omega
      · rw [if_neg h3, if_neg (fun h => h3 h.symm)]
        omega
    · rw [if_neg h2, if_neg (fun h => h2 h.symm)]
      exact strLtB_lt_total h2
  · rw [if_neg h1, if_neg (fun h => h1 h.symm)]
    omega

instance : IsTotal FeatureRecord recLe := ⟨recLe_total⟩

theorem strLtB_irrefl (a : String) : strLtB a a = false := strLtAux_irrefl a.data

theorem strLtB_le_trans {a b c : String} (hab : strLtB b a = false)
    (hbc : strLtB c b = false) : strLtB c a = false := by
  by_cases h : strLtB c a = true
  · exfalso
    by_cases hba : strLtB a b = true
    · have hcb : strLtB c b = true := strLtAux_trans h hba
      rw [hcb] at hbc; simp at hbc
    · rw [Bool.not_eq_true] at hba
      have heq : a = b := strLtB_eq_of_not_lt hba hab
      rw [heq] at h
      rw [h] at hbc; simp at hbc
  · rw [Bool.not_eq_true] at h; exact h

theorem recLe_trans (a b c : FeatureRecord) (hab : recLe a b) (hbc : recLe b c) :
    recLe a c := by
  unfold recLe at hab hbc ⊢
  by_cases e1 : a.replicate = b.replicate
  · rw [if_pos e1] at hab
    by_cases e1' : b.replicate = c.replicate
    · rw [if_pos e1'] at hbc
      rw [if_pos (e1.trans e1')]
      by_cases e2 : a.chromosome = b.chromosome
      · rw [if_pos e2] at hab
        by_cases e2' : b.chromosome = c.chromosome
        · rw [if_pos e2'] at hbc
          rw [if_pos (e2.trans e2')]
          by_cases e3 : a.start = b.start
          · rw [if_pos e3] at hab
            by_cases e3' : b.start = c.start
            · rw [if_pos e3'] at hbc
              rw [if_pos (e3.trans e3')]
              by_cases e4 : a.stop = b.stop
              · rw [if_pos e4] at hab
                by_cases e4' : b.stop = c.stop
                · rw [if_pos e4'] at hbc
                  rw [if_pos (e4.trans e4')]
                  exact strLtB_le_trans hab hbc
                · rw [if_neg e4'] at hbc
                  rw [if_neg (by omega)]
                  omega
              · rw [if_neg e4] at hab
                by_cases e4' : b.stop = c.stop
                · rw [if_neg (by omega)]; omega
                · rw [if_neg e4'] at hbc
                  rw [if_neg (by omega)]; omega
            · rw [if_neg e3'] at hbc
              rw [if_neg (by omega)]; omega
          · rw [if_neg e3] at hab
            by_cases e3' : b.start = c.start
            · rw [if_neg (by omega)]; omega
            · rw [if_neg e3'] at hbc
              rw [if_neg (by omega)]; omega
        · rw [if_neg e2'] at hbc
          rw [if_neg (e2 ▸ e2')]
          exact e2 ▸ hbc
      · rw [if_neg e2] at hab
        by_cases e2' : b.chromosome = c.chromosome
        · rw [if_neg (e2' ▸ e2)]
          exact e2' ▸ hab
        · rw [if_neg e2'] at hbc
          have hlt : strLtB a.chromosome c.chromosome = true := strLtAux_trans hab hbc
          have hne : ¬a.chromosome = c.chromosome := by
            intro h
            rw [h, strLtB_irrefl] at hlt
            simp at hlt
          rw [if_neg hne]
          exact hlt
    · rw [if_neg e1'] at hbc
      rw [if_neg (by omega), e1]
      exact hbc
  · rw [if_neg e1] at hab
    by_cases e1' : b.replicate = c.replicate
    · rw [if_neg (by omega), ← e1']
      exact hab
    · rw [if_neg e1'] at hbc
      rw [if_neg (by omega)]
      omega

instance : IsTrans FeatureRecord recLe := ⟨recLe_trans⟩

/-- The sort relation is antisymmetric on keys: mutually `recLe`-related
records have equal sort keys. -/
theorem recLe_antisymm_key {a b : FeatureRecord} (hab : recLe a b)
    (hba : recLe b a) : keyOf a = keyOf b := by
  unfold recLe at hab hba
  unfold keyOf
  by_cases e1 : a.replicate = b.replicate
  · rw [if_pos e1] at hab; rw [if_pos e1.symm] at hba
    by_cases e2 : a.chromosome = b.chromosome
    · rw [if_pos e2] at hab; rw [if_pos e2.symm] at hba
      by_cases e3 : a.start = b.start
      · rw [if_pos e3] at hab; rw [if_pos e3.symm] at hba
        by_cases e4 : a.stop = b.stop
        · rw [if_pos e4] at hab; rw [if_pos e4.symm] at hba
          have : a.sample = b.sample := strLtB_eq_of_not_lt hba hab
          simp [e1, e2, e3, e4, this]
        · rw [if_neg e4] at hab
          rw [if_neg (fun h => e4 h.symm)] at hba
          omega
      · rw [if_neg e3] at hab
        rw [if_neg (fun h => e3 h.symm)] at hba
        omega
    · rw [if_neg e2] at hab
      rw [if_neg (fun h => e2 h.symm)] at hba
      exfalso
      have hasym : strLtB b.chromosome a.chromosome = false := strLtAux_asymm hab
      rw [hba] at hasym
      simp at hasym
  · rw [if_neg e1] at hab
    rw [if_neg (fun h => e1 h.symm)] at hba
    omega

/-- A strictly smaller replicate index forces the sort order. -/
theorem recLe_of_rep_lt {a b : FeatureRecord} (h : a.replicate < b.replicate) :
    recLe a b := by
  unfold recLe
  rw [if_neg (by omega)]
  exact h

/-! ## The scalar scheduler `lr_simulate`

`lr_simulate` repeatedly dispatches batches of `nrep` replicates through
`mp_manager` and accumulates the returned feature records per class.  The
process pool and per-replicate pipeline are collaborators: a run is
parametrised by `batch : Nat → Except Unit (List FeatureRecord)`, the
records `mp_manager` returns for the batch beginning at a given replicate
start index (`Except.error` models the `"error"` sentinel).  The `while`
loop is given explicit fuel; exhausted fuel models nontermination. -/

/-- Failure modes of the schedulers: the `ValueError` raised for a
non-positive `nfeature`, the `SystemExit` raised for the worker error
sentinel, and fuel exhaustion (a run that never reaches its target). -/
inductive SimError where
  | invalidNFeature
  | workerFailure
  | outOfFuel
deriving DecidableEq, Repr

/-- `num_intro_features = nfeature // 2 + nfeature % 2`: the positive-class
quota; for odd totals the extra record goes to the introgressed class. -/
def numIntroFeatures (nfeature : Nat) : Nat := nfeature / 2 + nfeature % 2

/-- `num_non_intro_features = nfeature // 2`: the negative-class quota. -/
def numNonIntroFeatures (nfeature : Nat) : Nat := nfeature / 2

/-- The mutable state of the collection loop: the two class accumulators
and the replicate cursor `start_rep`. -/
structure LRState where
  introFeatures : List FeatureRecord
  nonIntroFeatures : List FeatureRecord
  startRep : Nat

/-- `features.sort(key=...)`: Python's stable ascending sort by the
five-component key, modelled by a stable insertion sort under `recLe`. -/
def sortRecords (l : List FeatureRecord) : List FeatureRecord :=
  List.insertionSort recLe l

/-- The `while not is_stopped` loop of `lr_simulate`: dispatch the batch at
`st.startRep`, abort on the error sentinel, sort, partition by label,
append (up to the per-class quotas when `force_balanced`), test the stop
condition, and advance the cursor by `nrep`. -/
def lrCollect (nfeature nrep : Nat) (forceBalanced : Bool)
    (batch : Nat → Except Unit (List FeatureRecord)) :
    Nat → LRState → Except SimError (List FeatureRecord × List FeatureRecord)
  | 0, _ => .error .outOfFuel
  | fuel + 1, st =>
    match batch st.startRep with
    | .error _ => .error .workerFailure
    | .ok features =>
      let sorted := sortRecords features
      let features0 := sorted.filter (fun x => x.label == 0)
      let features1 := sorted.filter (fun x => x.label == 1)
      if forceBalanced then
        -- `num_intro_features - len(intro_features)` is a Python int; it is
        -- never negative on reachable states (the accumulator is capped at its
        -- quota, see `LRInv`), so truncated Nat subtraction agrees with it.
        let toAddIntro :=
          min (numIntroFeatures nfeature - st.introFeatures.length) features1.length
        let toAddNonIntro :=
          min (numNonIntroFeatures nfeature - st.nonIntroFeatures.length)
            features0.length
        let intro := st.introFeatures ++ features1.take toAddIntro
        let nonIntro := st.nonIntroFeatures ++ features0.take toAddNonIntro
        if numIntroFeatures nfeature ≤ intro.length ∧
            numNonIntroFeatures nfeature ≤ nonIntro.length then
          .ok (intro, nonIntro)
        else
          lrCollect nfeature nrep forceBalanced batch fuel
            ⟨intro, nonIntro, st.startRep + nrep⟩
      else
        let intro := st.introFeatures ++ features1
        let nonIntro := st.nonIntroFeatures ++ features0
        if nfeature ≤ intro.length + nonIntro.length then
          .ok (intro, nonIntro)
        else
          lrCollect nfeature nrep forceBalanced batch fuel
            ⟨intro, nonIntro, st.startRep + nrep⟩

/-- The scheduler parameters of `lr_simulate` that the collection and
output logic depend on. -/
structure LRParams where
  nrep : Nat
  nfeature : Int
  seed : Nat
  isShuffled : Bool
  forceBalanced : Bool

/-- `lr_simulate`: validate `nfeature`, run the collection loop from empty
accumulators at `start_rep = 0`, concatenate positive + negative, truncate
to `nfeature`, then either shuffle with the seeded generator (the
collaborator `shuffle`, modelling `random.seed(seed); random.shuffle`) or
sort by the five-component key.  The returned list is the table written to
the output file. -/
def lrSimulate (P : LRParams) (batch : Nat → Except Unit (List FeatureRecord))
    (shuffle : Nat → List FeatureRecord → List FeatureRecord) (fuel : Nat) :
    Except SimError (List FeatureRecord) :=
  if P.nfeature ≤ 0 then .error .invalidNFeature
  else
    match lrCollect P.nfeature.toNat P.nrep P.forceBalanced batch fuel ⟨[], [], 0⟩ with
    | .error e => .error e
    | .ok (intro, nonIntro) =>
      let total := (intro ++ nonIntro).take P.nfeature.toNat
      .ok (if P.isShuffled then shuffle P.seed total else sortRecords total)

/-! ## The dense scheduler `unet_simulate`

`unet_simulate` performs no validation of `nfeature` and keeps two shared
counters that the workers update through `mp_manager` (code not under
`src/`); the counter effect of one batch is the collaborator `update`.
The model returns the start indices of the dispatched batches. -/

/-- The `while True` loop of `unet_simulate`: dispatch the batch, let the
workers update the shared counter pair, stop once the counters reach
`nfeature`.  Note there is no `nfeature` check anywhere on this path,
contrary to the function's own docstring. -/
def unetLoop (nfeature : Int) (nrep : Nat)
    (update : Nat → Nat × Nat → Nat × Nat) :
    Nat → Nat → Nat × Nat → List Nat → Except SimError (List Nat)
  | 0, _, _, _ => .error .outOfFuel
  | fuel + 1, startRep, counts, dispatched =>
    let counts' := update startRep counts
    let dispatched' := dispatched ++ [startRep]
    if nfeature ≤ (counts'.1 + counts'.2 : Int) then .ok dispatched'
    else unetLoop nfeature nrep update fuel (startRep + nrep) counts' dispatched'

/-- `unet_simulate`: run the dense collection loop from zeroed counters and
`start_rep = 0`, returning the dispatched batch start indices. -/
def unetSimulate (nfeature : Int) (nrep : Nat)
    (update : Nat → Nat × Nat → Nat × Nat) (fuel : Nat) :
    Except SimError (List Nat) :=
  unetLoop nfeature nrep update fuel 0 (0, 0) []

/-! ## Loop invariants of the collection loop -/

/-- Collaborator contract for `mp_manager` + `LRTrainingDataSimulator`:
the records of the batch dispatched at start index `s` carry the replicate
indices `s, …, s + nrep - 1` of that batch in their `Replicate` field. -/
def BatchBounds (batch : Nat → Except Unit (List FeatureRecord)) (nrep : Nat) : Prop :=
  ∀ s l, batch s = .ok l → ∀ f ∈ l, s ≤ f.replicate ∧ f.replicate < s + nrep

/-- Invariant of the collection loop relating the accumulators to the
cursor: each accumulator is sorted by the five-component key, holds only
records of its own class from already-dispatched replicates, and (in
balanced mode) never exceeds its quota. -/
structure LRInv (nI nN : Nat) (balanced : Bool) (st : LRState) : Prop where
  introSorted : List.Pairwise recLe st.introFeatures
  nonSorted : List.Pairwise recLe st.nonIntroFeatures
  introLabel : ∀ f ∈ st.introFeatures, f.label = 1
  nonLabel : ∀ f ∈ st.nonIntroFeatures, f.label = 0
  introRep : ∀ f ∈ st.introFeatures, f.replicate < st.startRep
  nonRep : ∀ f ∈ st.nonIntroFeatures, f.replicate < st.startRep
  introCap : balanced = true → st.introFeatures.length ≤ nI
  nonCap : balanced = true → st.nonIntroFeatures.length ≤ nN

theorem sortRecords_pairwise (l : List FeatureRecord) :
    List.Pairwise recLe (sortRecords l) :=
  List.sorted_insertionSort recLe l

theorem sortRecords_perm (l : List FeatureRecord) : (sortRecords l).Perm l :=
  List.perm_insertionSort recLe l

theorem pairwise_take {l : List FeatureRecord} (n : Nat)
    (h : List.Pairwise recLe l) : List.Pairwise recLe (l.take n) :=
  List.Pairwise.sublist (List.take_sublist n l) h

/-- Appending a sorted run of fresh records (from replicates at or past
the cursor) to a sorted accumulator of older records stays sorted. -/
theorem accum_append_pairwise {acc part : List FeatureRecord} {s : Nat}
    (hacc : List.Pairwise recLe acc) (hpart : List.Pairwise recLe part)
    (haccRep : ∀ f ∈ acc, f.replicate < s)
    (hpartRep : ∀ f ∈ part, s ≤ f.replicate) :
    List.Pairwise recLe (acc ++ part) := by
  rw [List.pairwise_append]
  refine ⟨hacc, hpart, ?_⟩
  intro a ha b hb
  exact recLe_of_rep_lt (lt_of_lt_of_le (haccRep a ha) (hpartRep b hb))

/-- Master lemma for the collection loop: from an invariant state, a run
that stops normally returns sorted single-class accumulators; in balanced
mode both quotas are met exactly, in unbalanced mode the requested total
is reached. -/
theorem lrCollect_ok_props (nf nrep : Nat) (fb : Bool)
    (batch : Nat → Except Unit (List FeatureRecord))
    (hb : BatchBounds batch nrep) :
    ∀ fuel st intro nonIntro,
      LRInv (numIntroFeatures nf) (numNonIntroFeatures nf) fb st →
      lrCollect nf nrep fb batch fuel st = .ok (intro, nonIntro) →
      List.Pairwise recLe intro ∧ List.Pairwise recLe nonIntro ∧
      (∀ f ∈ intro, f.label = 1) ∧ (∀ f ∈ nonIntro, f.label = 0) ∧
      (fb = true → intro.length = numIntroFeatures nf ∧
        nonIntro.length = numNonIntroFeatures nf) ∧
      (fb = false → nf ≤ intro.length + nonIntro.length) := by
  intro fuel
  induction fuel with
  | zero =>
    intro st intro nonIntro _ h
    simp [lrCollect] at h
  | succ fuel ih =>
    intro st intro nonIntro hinv h
    rw [lrCollect] at h
    cases hbatch : batch st.startRep with
    | error e => rw [hbatch] at h; simp at h
    | ok features =>
      rw [hbatch] at h
      simp only at h
      set f0 := (sortRecords features).filter (fun x => x.label == 0) with hf0
      set f1 := (sortRecords features).filter (fun x => x.label == 1) with hf1
      have hf1sorted : List.Pairwise recLe f1 :=
        List.Sorted.filter _ (sortRecords_pairwise features)
      have hf0sorted : List.Pairwise recLe f0 :=
        List.Sorted.filter _ (sortRecords_pairwise features)
      have hf1lab : ∀ f ∈ f1, f.label = 1 := by
        intro f hf
        have := (List.mem_filter.mp hf).2
        simpa using this
      have hf0lab : ∀ f ∈ f0, f.label = 0 := by
        intro f hf
        have := (List.mem_filter.mp hf).2
        simpa using this
      have hf1rep : ∀ f ∈ f1, st.startRep ≤ f.replicate ∧
          f.replicate < st.startRep + nrep := by
        intro f hf
        exact hb st.startRep features hbatch f
          ((sortRecords_perm features).mem_iff.mp (List.mem_of_mem_filter hf))
      have hf0rep : ∀ f ∈ f0, st.startRep ≤ f.replicate ∧
          f.replicate < st.startRep + nrep := by
        intro f hf
        exact hb st.startRep features hbatch f
          ((sortRecords_perm features).mem_iff.mp (List.mem_of_mem_filter hf))
      cases fb with
      | true =>
        simp only [if_true] at h
        set tI := min (numIntroFeatures nf - st.introFeatures.length) f1.length with htI
        set tN := min (numNonIntroFeatures nf - st.nonIntroFeatures.length) f0.length with htN
        set introNew := st.introFeatures ++ f1.take tI with hIN
        set nonNew := st.nonIntroFeatures ++ f0.take tN with hNN
        have hinvNew : LRInv (numIntroFeatures nf) (numNonIntroFeatures nf) true
            ⟨introNew, nonNew, st.startRep + nrep⟩ := by
          refine ⟨?_, ?_, ?_, ?_, ?_, ?_, ?_, ?_⟩
          · exact accum_append_pairwise hinv.introSorted (pairwise_take tI hf1sorted)
              hinv.introRep (fun f hf => (hf1rep f (List.mem_of_mem_take hf)).1)
          · exact accum_append_pairwise hinv.nonSorted (pairwise_take tN hf0sorted)
              hinv.nonRep (fun f hf => (hf0rep f (List.mem_of_mem_take hf)).1)
          · intro f hf
            rcases List.mem_append.mp hf with hf | hf
            · exact hinv.introLabel f hf
            · exact hf1lab f (List.mem_of_mem_take hf)
          · intro f hf
            rcases List.mem_append.mp hf with hf | hf
            · exact hinv.nonLabel f hf
            · exact hf0lab f (List.mem_of_mem_take hf)
          · intro f hf
            rcases List.mem_append.mp hf with hf | hf
            · exact lt_of_lt_of_le (hinv.introRep f hf) (Nat.le_add_right _ _)
            · exact (hf1rep f (List.mem_of_mem_take hf)).2
          · intro f hf
            rcases List.mem_append.mp hf with hf | hf
            · exact lt_of_lt_of_le (hinv.nonRep f hf) (Nat.le_add_right _ _)
            · exact (hf0rep f (List.mem_of_mem_take hf)).2
          · intro _
            have hcap := hinv.introCap rfl
            simp only [hIN, List.length_append, List.length_take]
            omega
          · intro _
            have hcap := hinv.nonCap rfl
            simp only [hNN, List.length_append, List.length_take]
            omega
        by_cases hstop : numIntroFeatures nf ≤ introNew.length ∧
            numNonIntroFeatures nf ≤ nonNew.length
        · rw [if_pos hstop] at h
          injection h with h
          injection h with h1 h2
          subst h1; subst h2
          refine ⟨hinvNew.introSorted, hinvNew.nonSorted, hinvNew.introLabel,
            hinvNew.nonLabel, ?_, ?_⟩
          · intro _
            have hc1 := hinvNew.introCap rfl
            have hc2 := hinvNew.nonCap rfl
            exact ⟨le_antisymm hc1 hstop.1, le_antisymm hc2 hstop.2⟩
          · intro hfalse; cases hfalse
        · rw [if_neg hstop] at h
          exact ih ⟨introNew, nonNew, st.startRep + nrep⟩ intro nonIntro hinvNew h
      | false =>
        rw [if_neg (by simp)] at h
        set introNew := st.introFeatures ++ f1 with hIN
        set nonNew := st.nonIntroFeatures ++ f0 with hNN
        have hinvNew : LRInv (numIntroFeatures nf) (numNonIntroFeatures nf) false
            ⟨introNew, nonNew, st.startRep + nrep⟩ := by
          refine ⟨?_, ?_, ?_, ?_, ?_, ?_, ?_, ?_⟩
          · exact accum_append_pairwise hinv.introSorted hf1sorted
              hinv.introRep (fun f hf => (hf1rep f hf).1)
          · exact accum_append_pairwise hinv.nonSorted hf0sorted
              hinv.nonRep (fun f hf => (hf0rep f hf).1)
          · intro f hf
            rcases List.mem_append.mp hf with hf | hf
            · exact hinv.introLabel f hf
            · exact hf1lab f hf
          · intro f hf
            rcases List.mem_append.mp hf with hf | hf
            · exact hinv.nonLabel f hf
            · exact hf0lab f hf
          · intro f hf
            rcases List.mem_append.mp hf with hf | hf
            · exact lt_of_lt_of_le (hinv.introRep f hf) (Nat.le_add_right _ _)
            · exact (hf1rep f hf).2
          · intro f hf
            rcases List.mem_append.mp hf with hf | hf
            · exact lt_of_lt_of_le (hinv.nonRep f hf) (Nat.le_add_right _ _)
            · exact (hf0rep f hf).2
          · intro hfalse; cases hfalse
          · intro hfalse; cases hfalse
        by_cases hstop : nf ≤ introNew.length + nonNew.length
        · rw [if_pos hstop] at h
          injection h with h
          injection h with h1 h2
          subst h1; subst h2
          refine ⟨hinvNew.introSorted, hinvNew.nonSorted, hinvNew.introLabel,
            hinvNew.nonLabel, ?_, fun _ => hstop⟩
          intro hfalse; cases hfalse
        · rw [if_neg hstop] at h
          exact ih ⟨introNew, nonNew, st.startRep + nrep⟩ intro nonIntro hinvNew h

/-- The initial state of the loop: empty accumulators, cursor at 0. -/
theorem lrInv_init (nI nN : Nat) (fb : Bool) : LRInv nI nN fb ⟨[], [], 0⟩ := by
  refine ⟨List.Pairwise.nil, List.Pairwise.nil, ?_, ?_, ?_, ?_, ?_, ?_⟩ <;>
    simp

theorem countP_label_one {l : List FeatureRecord} (h : ∀ f ∈ l, f.label = 1) :
    l.countP (fun f => f.label == 1) = l.length := by
  rw [List.countP_eq_length]
  intro f hf
  simp [h f hf]

theorem countP_label_one_zero {l : List FeatureRecord} (h : ∀ f ∈ l, f.label = 0) :
    l.countP (fun f => f.label == 1) = 0 := by
  rw [List.countP_eq_zero]
  intro f hf
  simp [h f hf]

theorem countP_label_zero {l : List FeatureRecord} (h : ∀ f ∈ l, f.label = 0) :
    l.countP (fun f => f.label == 0) = l.length := by
  rw [List.countP_eq_length]
  intro f hf
  simp [h f hf]

theorem countP_label_zero_one {l : List FeatureRecord} (h : ∀ f ∈ l, f.label = 1) :
    l.countP (fun f => f.label == 0) = 0 := by
  rw [List.countP_eq_zero]
  intro f hf
  simp [h f hf]

/-- C1: with `force_balanced=true` and `nfeature=101`, a terminating run
of `lr_simulate` ends with exactly 51 positive and 50 negative records in
the final output, the two class accumulators are in ascending
`(Replicate, Chromosome, Start, End, Sample)` order before any shuffle,
and in general an odd `nfeature` assigns the larger half of the quota to
the positive (introgressed) class. -/
theorem lr_simulate_balanced_quota_101
    (nrep : Nat) (batch : Nat → Except Unit (List FeatureRecord))
    (shuffle : Nat → List FeatureRecord → List FeatureRecord)
    (seed fuel : Nat) (isShuffled : Bool)
    (intro nonIntro out : List FeatureRecord)
    (hb : BatchBounds batch nrep)
    (hshuffle : ∀ s l, (shuffle s l).Perm l)
    (hloop : lrCollect 101 nrep true batch fuel ⟨[], [], 0⟩ = .ok (intro, nonIntro))
    (hout : lrSimulate ⟨nrep, 101, seed, isShuffled, true⟩ batch shuffle fuel = .ok out) :
    out.countP (fun f => f.label == 1) = 51 ∧
    out.countP (fun f => f.label == 0) = 50 ∧
    List.Pairwise recLe intro ∧ List.Pairwise recLe nonIntro ∧
    intro.length = 51 ∧ nonIntro.length = 50 ∧
    (∀ n : Nat, n % 2 = 1 → numIntroFeatures n = numNonIntroFeatures n + 1) := by
  obtain ⟨hIsorted, hNsorted, hIlab, hNlab, hbalanced, -⟩ :=
    lrCollect_ok_props 101 nrep true batch hb fuel ⟨[], [], 0⟩ intro nonIntro
      (lrInv_init _ _ _) hloop
  obtain ⟨hIlen, hNlen⟩ := hbalanced rfl
  have hIlen' : intro.length = 51 := by
    rw [hIlen]; rfl
  have hNlen' : nonIntro.length = 50 := by
    rw [hNlen]; rfl
  rw [lrSimulate] at hout
  rw [if_neg (by norm_num)] at hout
  have htoNat : (101 : Int).toNat = 101 := rfl
  rw [htoNat, hloop] at hout
  simp only at hout
  have htake : (intro ++ nonIntro).take 101 = intro ++ nonIntro := by
    apply List.take_of_length_le
    rw [List.length_append, hIlen', hNlen']
  have houtPerm : out.Perm (intro ++ nonIntro) := by
    rcases isShuffled with _ | _
    · simp only [Bool.false_eq_true, if_false] at hout
      injection hout with hout
      rw [← hout, htake]
      exact sortRecords_perm _
    · simp only [if_true] at hout
      injection hout with hout
      rw [← hout, htake]
      exact hshuffle seed _
  refine ⟨?_, ?_, hIsorted, hNsorted, hIlen', hNlen', ?_⟩
  · rw [houtPerm.countP_eq, List.countP_append,
      countP_label_one hIlab, countP_label_one_zero hNlab, hIlen']
  · rw [houtPerm.countP_eq, List.countP_append,
      countP_label_zero_one hIlab, countP_label_zero hNlab, hNlen']
  · intro n hn
    unfold numIntroFeatures numNonIntroFeatures
    omega

/-- A concrete batch of 120 records (replicates 0–119): sixty positive
followed by sixty negative records. -/
def c1Batch : List FeatureRecord :=
  (List.range 60).map (fun i => ⟨i, "1", 0, 50000, "tsk_50", 1, []⟩) ++
  (List.range 60).map (fun i => ⟨60 + i, "1", 0, 50000, "tsk_50", 0, []⟩)

/-- A concrete collaborator: the batch starting at replicate 0 returns
`c1Batch`, later batches return nothing. -/
def c1BatchFun : Nat → Except Unit (List FeatureRecord) :=
  fun s => .ok (if s = 0 then c1Batch else [])

theorem c1BatchFun_bounds : BatchBounds c1BatchFun 120 := by
  intro s l h f hf
  injection h with h
  subst h
  cases s with
  | zero =>
    simp only [if_pos rfl] at hf
    revert hf
    revert f
    decide
  | succ n =>
    rw [if_neg (by omega)] at hf
    cases hf

def c1Intro : List FeatureRecord :=
  ((sortRecords c1Batch).filter (fun x => x.label == 1)).take 51

def c1Non : List FeatureRecord :=
  ((sortRecords c1Batch).filter (fun x => x.label == 0)).take 50

def c1Out : List FeatureRecord := sortRecords ((c1Intro ++ c1Non).take 101)

theorem lr_simulate_balanced_quota_101_witness :
    c1Out.countP (fun f => f.label == 1) = 51 ∧
    c1Out.countP (fun f => f.label == 0) = 50 ∧
    List.Pairwise recLe c1Intro ∧ List.Pairwise recLe c1Non ∧
    c1Intro.length = 51 ∧ c1Non.length = 50 ∧
    (∀ n : Nat, n % 2 = 1 → numIntroFeatures n = numNonIntroFeatures n + 1) :=
  lr_simulate_balanced_quota_101 120 c1BatchFun (fun _ l => l) 0 1 false
    c1Intro c1Non c1Out c1BatchFun_bounds (fun _ _ => List.Perm.refl _)
    rfl rfl

theorem quota_sum (n : Nat) : numIntroFeatures n + numNonIntroFeatures n = n := by
  unfold numIntroFeatures numNonIntroFeatures
  omega

/-- C4: a run that stops normally has collected at least `nfeature`
records; the final (unshuffled) output is the sorted truncation of the
concatenated accumulators to exactly `nfeature` records, it is in
ascending key order, and the truncation keeps a prefix of each
(sorted) class accumulator, i.e. the earliest replicates in sort order. -/
theorem lr_simulate_truncation (P : LRParams)
    (batch : Nat → Except Unit (List FeatureRecord))
    (shuffle : Nat → List FeatureRecord → List FeatureRecord) (fuel : Nat)
    (intro nonIntro out : List FeatureRecord)
    (hpos : 0 < P.nfeature)
    (hsh : P.isShuffled = false)
    (hb : BatchBounds batch P.nrep)
    (hloop : lrCollect P.nfeature.toNat P.nrep P.forceBalanced batch fuel
      ⟨[], [], 0⟩ = .ok (intro, nonIntro))
    (hout : lrSimulate P batch shuffle fuel = .ok out) :
    out = sortRecords ((intro ++ nonIntro).take P.nfeature.toNat) ∧
    out.length = P.nfeature.toNat ∧
    List.Pairwise recLe out ∧
    (intro ++ nonIntro).take P.nfeature.toNat =
      intro.take P.nfeature.toNat ++
        nonIntro.take (P.nfeature.toNat - intro.length) ∧
    List.Pairwise recLe intro ∧ List.Pairwise recLe nonIntro := by
  obtain ⟨hIsorted, hNsorted, hIlab, hNlab, hbal, hunbal⟩ :=
    lrCollect_ok_props P.nfeature.toNat P.nrep P.forceBalanced batch hb fuel
      ⟨[], [], 0⟩ intro nonIntro (lrInv_init _ _ _) hloop
  have htotal : P.nfeature.toNat ≤ intro.length + nonIntro.length := by
    cases hfb : P.forceBalanced with
    | true =>
      obtain ⟨h1, h2⟩ := hbal hfb
      rw [h1, h2, quota_sum]
    | false => exact hunbal hfb
  rw [lrSimulate] at hout
  rw [if_neg (by omega)] at hout
  rw [hloop] at hout
  simp only at hout
  rw [hsh] at hout
  simp only [Bool.false_eq_true, if_false] at hout
  injection hout with hout
  subst hout
  refine ⟨rfl, ?_, sortRecords_pairwise _, List.take_append_eq_append_take,
    hIsorted, hNsorted⟩
  rw [(sortRecords_perm _).length_eq, List.length_take, List.length_append]
  omega

def c4Intro : List FeatureRecord :=
  (sortRecords c1Batch).filter (fun x => x.label == 1)

def c4Non : List FeatureRecord :=
  (sortRecords c1Batch).filter (fun x => x.label == 0)

def c4Out : List FeatureRecord := sortRecords ((c4Intro ++ c4Non).take 101)

theorem lr_simulate_truncation_witness :
    c4Out = sortRecords ((c4Intro ++ c4Non).take 101) ∧
    c4Out.length = 101 ∧
    List.Pairwise recLe c4Out ∧
    (c4Intro ++ c4Non).take 101 =
      c4Intro.take 101 ++ c4Non.take (101 - c4Intro.length) ∧
    List.Pairwise recLe c4Intro ∧ List.Pairwise recLe c4Non :=
  lr_simulate_truncation ⟨120, 101, 0, false, false⟩ c1BatchFun (fun _ l => l)
    1 c4Intro c4Non c4Out (by decide) rfl c1BatchFun_bounds rfl rfl

/-- C8: a batch returning the worker-error sentinel makes the collection
loop — and hence `lr_simulate` — abort with the terminal failure instead
of producing an output table. -/
theorem lr_simulate_worker_failure :
    (∀ (nf nrep : Nat) (fb : Bool) (batch : Nat → Except Unit (List FeatureRecord))
      (fuel : Nat) (st : LRState), 0 < fuel → batch st.startRep = .error () →
      lrCollect nf nrep fb batch fuel st = .error .workerFailure) ∧
    (∀ (P : LRParams) (batch : Nat → Except Unit (List FeatureRecord))
      (shuffle : Nat → List FeatureRecord → List FeatureRecord) (fuel : Nat),
      0 < P.nfeature → 0 < fuel → batch 0 = .error () →
      lrSimulate P batch shuffle fuel = .error .workerFailure) := by
  have hloop : ∀ (nf nrep : Nat) (fb : Bool)
      (batch : Nat → Except Unit (List FeatureRecord))
      (fuel : Nat) (st : LRState), 0 < fuel → batch st.startRep = .error () →
      lrCollect nf nrep fb batch fuel st = .error .workerFailure := by
    intro nf nrep fb batch fuel st hfuel herr
    cases fuel with
    | zero => omega
    | succ fuel =>
      rw [lrCollect, herr]
  refine ⟨hloop, ?_⟩
  intro P batch shuffle fuel hpos hfuel herr
  rw [lrSimulate]
  rw [if_neg (by omega)]
  rw [hloop P.nfeature.toNat P.nrep P.forceBalanced batch fuel ⟨[], [], 0⟩ hfuel herr]

theorem lr_simulate_worker_failure_witness :
    lrCollect 5 1 true (fun _ => .error ()) 3 ⟨[], [], 0⟩ =
      .error .workerFailure ∧
    lrSimulate ⟨1, 5, 0, false, true⟩ (fun _ => .error ()) (fun _ l => l) 3 =
      .error .workerFailure :=
  ⟨lr_simulate_worker_failure.1 5 1 true (fun _ => .error ()) 3 ⟨[], [], 0⟩
      (by decide) rfl,
    lr_simulate_worker_failure.2 ⟨1, 5, 0, false, true⟩ (fun _ => .error ())
      (fun _ l => l) 3 (by decide) (by decide) rfl⟩

/-! ## Determinism of `lr_simulate`

The only nondeterminism in a run with deterministic collaborators is the
order in which the process pool collects per-replicate results within a
batch: the collected batch is well defined up to permutation.  The
scheduler sorts every batch before using it, so the whole run is
invariant under that permutation whenever the sort keys within a batch
are distinct. -/

/-- Two batch results that agree up to worker completion order: both the
error sentinel, or permutations of each other. -/
def batchEquiv : Except Unit (List FeatureRecord) →
    Except Unit (List FeatureRecord) → Prop
  | .error _, .error _ => True
  | .ok l1, .ok l2 => l1.Perm l2
  | _, _ => False

/-- Every batch a collaborator can return has pairwise-distinct sort keys
(per-replicate records are a pure function of the replicate index, and
distinct windows/samples have distinct keys). -/
def KeysDistinct (batch : Nat → Except Unit (List FeatureRecord)) : Prop :=
  ∀ s l, batch s = .ok l → List.Pairwise (fun a b => keyOf a ≠ keyOf b) l

/-- Two sorted lists that are permutations of each other and have
pairwise-distinct keys are equal. -/
theorem sorted_perm_key_distinct_eq : ∀ {l1 l2 : List FeatureRecord},
    List.Pairwise recLe l1 → List.Pairwise recLe l2 → l1.Perm l2 →
    List.Pairwise (fun a b => keyOf a ≠ keyOf b) l1 → l1 = l2
  | [], l2, _, _, hperm, _ => hperm.nil_eq
  | a :: t1, [], _, _, hperm, _ => by
    simp [List.perm_nil] at hperm
  | a :: t1, b :: t2, h1, h2, hperm, hdist => by
    by_cases hab : a = b
    · subst hab
      have ht : t1 = t2 :=
        sorted_perm_key_distinct_eq (List.pairwise_cons.mp h1).2
          (List.pairwise_cons.mp h2).2 hperm.cons_inv
          (List.pairwise_cons.mp hdist).2
      rw [ht]
    · exfalso
      have haMem : a ∈ b :: t2 := hperm.mem_iff.mp (List.mem_cons_self a t1)
      have haT2 : a ∈ t2 := by
        rcases List.mem_cons.mp haMem with h | h
        · exact absurd h hab
        · exact h
      have hbMem : b ∈ a :: t1 := hperm.mem_iff.mpr (List.mem_cons_self b t2)
      have hbT1 : b ∈ t1 := by
        rcases List.mem_cons.mp hbMem with h | h
        · exact absurd h.symm hab
        · exact h
      have hab' : recLe a b := (List.pairwise_cons.mp h1).1 b hbT1
      have hba : recLe b a := (List.pairwise_cons.mp h2).1 a haT2
      exact (List.pairwise_cons.mp hdist).1 b hbT1 (recLe_antisymm_key hab' hba)

/-- Sorting is invariant under permutation of its input when the sort
keys are pairwise distinct. -/
theorem sortRecords_congr {l1 l2 : List FeatureRecord} (hperm : l1.Perm l2)
    (hdist : List.Pairwise (fun a b => keyOf a ≠ keyOf b) l1) :
    sortRecords l1 = sortRecords l2 := by
  apply sorted_perm_key_distinct_eq (sortRecords_pairwise l1)
    (sortRecords_pairwise l2)
    ((sortRecords_perm l1).trans (hperm.trans (sortRecords_perm l2).symm))
  exact ((sortRecords_perm l1).pairwise_iff
    (fun h => fun he => h he.symm)).mpr hdist

/-- The collection loop is invariant under worker completion order. -/
theorem lrCollect_congr (nf nrep : Nat) (fb : Bool)
    (b1 b2 : Nat → Except Unit (List FeatureRecord))
    (hbe : ∀ s, batchEquiv (b1 s) (b2 s)) (hkd : KeysDistinct b1) :
    ∀ (fuel : Nat) (st : LRState),
      lrCollect nf nrep fb b1 fuel st = lrCollect nf nrep fb b2 fuel st := by
  intro fuel
  induction fuel with
  | zero => intro st; rfl
  | succ fuel ih =>
    intro st
    rw [lrCollect, lrCollect]
    have hequiv := hbe st.startRep
    cases h1 : b1 st.startRep with
    | error e =>
      cases h2 : b2 st.startRep with
      | error e' => rfl
      | ok l2 => rw [h1, h2] at hequiv; cases hequiv
    | ok l1 =>
      cases h2 : b2 st.startRep with
      | error e' => rw [h1, h2] at hequiv; cases hequiv
      | ok l2 =>
        rw [h1, h2] at hequiv
        have hsort : sortRecords l1 = sortRecords l2 :=
          sortRecords_congr hequiv (hkd st.startRep l1 h1)
        simp only [hsort, ih]

/-- C9: with deterministic collaborators, two runs of `lr_simulate` with
identical `seed`, `nrep` and all other parameters — differing only in the
order workers of a batch complete — produce identical output tables, both
without shuffling and with the seeded shuffle (the shuffle is seeded with
the same `seed`, hence is the same function of the pre-shuffle table). -/
theorem lr_simulate_deterministic (P : LRParams)
    (b1 b2 : Nat → Except Unit (List FeatureRecord))
    (shuffle : Nat → List FeatureRecord → List FeatureRecord) (fuel : Nat)
    (hbe : ∀ s, batchEquiv (b1 s) (b2 s)) (hkd : KeysDistinct b1) :
    lrSimulate P b1 shuffle fuel = lrSimulate P b2 shuffle fuel := by
  rw [lrSimulate, lrSimulate,
    lrCollect_congr P.nfeature.toNat P.nrep P.forceBalanced b1 b2 hbe hkd fuel]

def c9RecA : FeatureRecord := ⟨0, "1", 0, 50000, "tsk_0", 1, [5]⟩

def c9RecB : FeatureRecord := ⟨1, "1", 0, 50000, "tsk_0", 0, [7]⟩

def c9Batch1 : Nat → Except Unit (List FeatureRecord) :=
  fun s => .ok (if s = 0 then [c9RecA, c9RecB] else [])

def c9Batch2 : Nat → Except Unit (List FeatureRecord) :=
  fun s => .ok (if s = 0 then [c9RecB, c9RecA] else [])

theorem c9Batch_equiv : ∀ s, batchEquiv (c9Batch1 s) (c9Batch2 s) := by
  intro s
  cases s with
  | zero => exact List.Perm.swap c9RecB c9RecA []
  | succ n =>
    show batchEquiv (.ok (if n + 1 = 0 then [c9RecA, c9RecB] else []))
      (.ok (if n + 1 = 0 then [c9RecB, c9RecA] else []))
    rw [if_neg (Nat.succ_ne_zero n), if_neg (Nat.succ_ne_zero n)]
    exact List.Perm.refl []

theorem c9Batch_keys : KeysDistinct c9Batch1 := by
  intro s l h
  injection h with h
  subst h
  cases s with
  | zero => simp only [if_pos rfl]; decide
  | succ n => rw [if_neg (by omega)]; exact List.Pairwise.nil

theorem lr_simulate_deterministic_witness :
    lrSimulate ⟨2, 2, 7, true, false⟩ c9Batch1 (fun _ l => l.reverse) 1 =
      lrSimulate ⟨2, 2, 7, true, false⟩ c9Batch2 (fun _ l => l.reverse) 1 :=
  lr_simulate_deterministic ⟨2, 2, 7, true, false⟩ c9Batch1 c9Batch2
    (fun _ l => l.reverse) 1 c9Batch_equiv c9Batch_keys

/-- C6: `lr_simulate` rejects a non-positive `nfeature` before touching
any batch, for every collaborator; `unet_simulate`, however, performs no
such validation — with `nfeature ≤ 0` it dispatches the first batch of
simulations and then returns normally. -/
theorem nfeature_validation :
    (∀ (P : LRParams) (batch : Nat → Except Unit (List FeatureRecord))
      (shuffle : Nat → List FeatureRecord → List FeatureRecord) (fuel : Nat),
      P.nfeature ≤ 0 → lrSimulate P batch shuffle fuel = .error .invalidNFeature) ∧
    (∀ nf : Int, nf ≤ 0 → ∀ (nrep : Nat) (update : Nat → Nat × Nat → Nat × Nat)
      (fuel : Nat), 0 < fuel → unetSimulate nf nrep update fuel = .ok [0]) := by
  constructor
  · intro P batch shuffle fuel hle
    rw [lrSimulate, if_pos hle]
  · intro nf hle nrep update fuel hfuel
    cases fuel with
    | zero => omega
    | succ fuel =>
      rw [unetSimulate, unetLoop]
      rw [if_pos (by
        have h1 : (0 : Int) ≤ ((update 0 (0, 0)).1 : Int) := Int.natCast_nonneg _
        have h2 : (0 : Int) ≤ ((update 0 (0, 0)).2 : Int) := Int.natCast_nonneg _
        omega)]
      rfl

theorem nfeature_validation_witness :
    lrSimulate ⟨1, 0, 0, false, false⟩ (fun _ => .ok []) (fun _ l => l) 1 =
      .error .invalidNFeature ∧
    unetSimulate 0 1 (fun _ c => c) 1 = .ok [0] :=
  ⟨nfeature_validation.1 ⟨1, 0, 0, false, false⟩ (fun _ => .ok [])
      (fun _ l => l) 1 (by decide),
    nfeature_validation.2 0 (by decide) 1 (fun _ c => c) 1 (by decide)⟩

/-! ## Tract extraction (`MsprimeSimulator._get_true_tracts`)

The tree sequence produced by msprime is a collaborator; its observable
structure — the population table, the migration table, the tree intervals
with their per-tree descendant tests, the sample sets and the node →
individual map — is the input of the extraction.  tskit's
`TreeSequence.simplify` is external; per the ancestry-simplifier contract
it preserves descendant tests for source/target samples, so the
post-simplification forest is modelled directly by the tree list carried
in the structure.  The migration filtering of `_simplify_ts` is in the
source and embedded below. -/

/-- A row of the migration table: interval, lineage node, and the
backward-in-time source and destination populations. -/
structure Migration where
  left : Nat
  right : Nat
  node : Nat
  source : Nat
  dest : Nat
deriving DecidableEq, Repr

/-- One tree of the (simplified) forest: its half-open genomic interval
and its descendant test (`desc n a` ↔ `t.is_descendant(n, a)`). -/
structure TreeM where
  ileft : Nat
  iright : Nat
  desc : Nat → Nat → Bool

/-- The observable structure of a tskit tree sequence. -/
structure TreeSeq where
  pops : List (Nat × String)
  migrations : List Migration
  trees : List TreeM
  samplesOf : Nat → List Nat
  individualOf : Nat → Nat
  seqLen : Nat

/-- An emitted tract row: `(chromosome='1', start, end, sample)`; the
chromosome is the literal `'1'` in the source. -/
structure Tract where
  start : Nat
  stop : Nat
  sample : String
deriving DecidableEq, Repr

/-- `[p.id for p in ts.populations() if p.metadata['name']==name][0]`:
the first population identifier whose metadata name matches, if any. -/
def resolvePop (pops : List (Nat × String)) (name : String) : Option Nat :=
  (((pops.filter (fun p => p.2 == name)).map (fun p => p.1))).head?

/-- The migration filter of `_simplify_ts`: keep the rows with
`dest == src_id` and `source == tgt_id`. -/
def relevantMigrations (migs : List Migration) (tgtId srcId : Nat) :
    List Migration :=
  migs.filter (fun m => m.dest == srcId && m.source == tgtId)

/-- `tsk_{individual}_{n % ploidy + 1}` when phased, `tsk_{individual}`
otherwise. -/
def sampleName (ts : TreeSeq) (ploidy : Nat) (isPhased : Bool) (n : Nat) :
    String :=
  if isPhased then
    "tsk_" ++ toString (ts.individualOf n) ++ "_" ++ toString (n % ploidy + 1)
  else
    "tsk_" ++ toString (ts.individualOf n)

/-- The inner sample loop: one tract per target sample that descends from
the migration's lineage node in this tree, clipped to the overlap of the
migration interval and the tree interval. -/
def emitForTree (ts : TreeSeq) (ploidy : Nat) (isPhased : Bool)
    (tgtSamples : List Nat) (m : Migration) (t : TreeM) : List Tract :=
  tgtSamples.filterMap (fun n =>
    if t.desc n m.node then
      some ⟨if m.left > t.ileft then m.left else t.ileft,
        if m.right < t.iright then m.right else t.iright,
        sampleName ts ploidy isPhased n⟩
    else none)

/-- The tree loop for one migration record: `continue` over trees whose
interval ends at or before `m.left`, `break` at the first tree starting
at or past `m.right`. -/
def emitForMigration (ts : TreeSeq) (ploidy : Nat) (isPhased : Bool)
    (tgtSamples : List Nat) (m : Migration) : List TreeM → List Tract
  | [] => []
  | t :: rest =>
    if m.left ≥ t.iright then
      emitForMigration ts ploidy isPhased tgtSamples m rest
    else if m.right ≤ t.ileft then []
    else
      emitForTree ts ploidy isPhased tgtSamples m t ++
        emitForMigration ts ploidy isPhased tgtSamples m rest

/-- `_get_true_tracts`: resolve the two population names (raising
`ValueError` when a name has no match), filter the migration table as in
`_simplify_ts`, and emit the clipped tracts over all relevant migrations,
trees and target samples. -/
def getTrueTracts (ts : TreeSeq) (tgtName srcName : String) (ploidy : Nat)
    (isPhased : Bool) : Except String (List Tract) :=
  match resolvePop ts.pops srcName with
  | none => .error ("Population " ++ srcName ++ " is not found.")
  | some srcId =>
    match resolvePop ts.pops tgtName with
    | none => .error ("Population " ++ tgtName ++ " is not found.")
    | some tgtId =>
      let tgtSamples := ts.samplesOf tgtId
      .ok (((relevantMigrations ts.migrations tgtId srcId).map
        (fun m => emitForMigration ts ploidy isPhased tgtSamples m ts.trees)).join)

/-- C7: `_get_true_tracts` fails with the resolution error iff the source
or the target population name matches no population; when both resolve,
extraction proceeds without a resolution error. -/
theorem get_true_tracts_resolution (ts : TreeSeq) (tgtName srcName : String)
    (ploidy : Nat) (isPhased : Bool) :
    (getTrueTracts ts tgtName srcName ploidy isPhased).isOk = false ↔
      resolvePop ts.pops srcName = none ∨ resolvePop ts.pops tgtName = none := by
  rw [getTrueTracts]
  cases hsrc : resolvePop ts.pops srcName with
  | none => simp [Except.isOk, Except.toBool]
  | some srcId =>
    cases htgt : resolvePop ts.pops tgtName with
    | none => simp [Except.isOk, Except.toBool]
    | some tgtId => simp [Except.isOk, Except.toBool]

theorem emitForTree_clip {ts : TreeSeq} {ploidy : Nat} {isPhased : Bool}
    {tgtSamples : List Nat} {m : Migration} {t : TreeM} {tr : Tract}
    (h : tr ∈ emitForTree ts ploidy isPhased tgtSamples m t) :
    tr.start = max m.left t.ileft ∧ tr.stop = min m.right t.iright := by
  obtain ⟨n, -, hn⟩ := List.mem_filterMap.mp h
  by_cases hd : t.desc n m.node = true
  · rw [if_pos hd] at hn
    injection hn with hn
    subst hn
    constructor
    · show (if m.left > t.ileft then m.left else t.ileft) = max m.left t.ileft
      rw [Nat.max_def]; split_ifs <;> omega
    · show (if m.right < t.iright then m.right else t.iright) = min m.right t.iright
      rw [Nat.min_def]; split_ifs <;> omega
  · rw [if_neg hd] at hn
    cases hn

theorem emitForMigration_mem {ts : TreeSeq} {ploidy : Nat} {isPhased : Bool}
    {tgtSamples : List Nat} {m : Migration} :
    ∀ {trees : List TreeM} {tr : Tract},
      tr ∈ emitForMigration ts ploidy isPhased tgtSamples m trees →
      ∃ t ∈ trees, m.left < t.iright ∧ t.ileft < m.right ∧
        tr ∈ emitForTree ts ploidy isPhased tgtSamples m t := by
  intro trees
  induction trees with
  | nil => intro tr h; cases h
  | cons t rest ih =>
    intro tr h
    rw [emitForMigration] at h
    by_cases h1 : m.left ≥ t.iright
    · rw [if_pos h1] at h
      obtain ⟨t', ht', hp⟩ := ih h
      exact ⟨t', List.mem_cons_of_mem t ht', hp⟩
    · rw [if_neg h1] at h
      by_cases h2 : m.right ≤ t.ileft
      · rw [if_pos h2] at h; cases h
      · rw [if_neg h2] at h
        rcases List.mem_append.mp h with h | h
        · exact ⟨t, List.mem_cons_self t rest, by omega, by omega, h⟩
        · obtain ⟨t', ht', hp⟩ := ih h
          exact ⟨t', List.mem_cons_of_mem t ht', hp⟩

/-- C2: every tract emitted by `_get_true_tracts` is the overlap of a
relevant migration interval and a tree interval it genuinely overlaps:
`start = max(l, tl)`, `end = min(r, tr)`; hence each tract lies inside
`[0, seq_len)` (trees being contained in the sequence) and is never wider
than the migration interval clipped to the tree interval. -/
theorem get_true_tracts_clipping (ts : TreeSeq) (tgtName srcName : String)
    (ploidy : Nat) (isPhased : Bool) (tracts : List Tract)
    (hTrees : ∀ t ∈ ts.trees, t.iright ≤ ts.seqLen)
    (hok : getTrueTracts ts tgtName srcName ploidy isPhased = .ok tracts) :
    ∀ tr ∈ tracts, ∃ tgtId srcId,
      resolvePop ts.pops tgtName = some tgtId ∧
      resolvePop ts.pops srcName = some srcId ∧
      ∃ m ∈ relevantMigrations ts.migrations tgtId srcId, ∃ t ∈ ts.trees,
        m.left < t.iright ∧ t.ileft < m.right ∧
        tr.start = max m.left t.ileft ∧ tr.stop = min m.right t.iright ∧
        tr.stop ≤ ts.seqLen ∧
        tr.stop - tr.start ≤ min m.right t.iright - max m.left t.ileft := by
  intro tr htr
  rw [getTrueTracts] at hok
  cases hsrc : resolvePop ts.pops srcName with
  | none => rw [hsrc] at hok; cases hok
  | some srcId =>
    rw [hsrc] at hok
    cases htgt : resolvePop ts.pops tgtName with
    | none => rw [htgt] at hok; cases hok
    | some tgtId =>
      rw [htgt] at hok
      injection hok with hok
      subst hok
      obtain ⟨l, hl, htrl⟩ := List.mem_join.mp htr
      obtain ⟨m, hm, hml⟩ := List.mem_map.mp hl
      subst hml
      obtain ⟨t, ht, hlt, hrt, htree⟩ := emitForMigration_mem htrl
      obtain ⟨hstart, hstop⟩ := emitForTree_clip htree
      refine ⟨tgtId, srcId, rfl, rfl, m, hm, t, ht, hlt, hrt, hstart, hstop,
        ?_, by omega⟩
      rw [hstop]
      exact le_trans (Nat.min_le_right _ _) (hTrees t ht)

/-- The spec's boundary scenario: `seq_len = 10000`, one relevant
migration over `[2000, 5000)`, trees over `[0, 3000)` and `[3000, 10000)`,
one target sample (node 7 of individual 3) descending from the lineage
node 42 in both trees. -/
def c2Ts : TreeSeq where
  pops := [(0, "src"), (1, "tgt")]
  migrations := [⟨2000, 5000, 42, 1, 0⟩]
  trees := [⟨0, 3000, fun n a => n == 7 && a == 42⟩,
    ⟨3000, 10000, fun n a => n == 7 && a == 42⟩]
  samplesOf := fun p => if p = 1 then [7] else []
  individualOf := fun _ => 3
  seqLen := 10000

theorem get_true_tracts_clipping_witness :
    getTrueTracts c2Ts "tgt" "src" 2 true =
      .ok [⟨2000, 3000, "tsk_3_2"⟩, ⟨3000, 5000, "tsk_3_2"⟩] ∧
    ∃ tgtId srcId,
      resolvePop c2Ts.pops "tgt" = some tgtId ∧
      resolvePop c2Ts.pops "src" = some srcId ∧
      ∃ m ∈ relevantMigrations c2Ts.migrations tgtId srcId, ∃ t ∈ c2Ts.trees,
        m.left < t.iright ∧ t.ileft < m.right ∧
        (2000 : Nat) = max m.left t.ileft ∧ (3000 : Nat) = min m.right t.iright ∧
        (3000 : Nat) ≤ c2Ts.seqLen ∧
        (3000 : Nat) - 2000 ≤ min m.right t.iright - max m.left t.ileft :=
  ⟨rfl,
    get_true_tracts_clipping c2Ts "tgt" "src" 2 true
      [⟨2000, 3000, "tsk_3_2"⟩, ⟨3000, 5000, "tsk_3_2"⟩]
      (by decide) rfl ⟨2000, 3000, "tsk_3_2"⟩ (List.mem_cons_self _ _)⟩

/-! ## Interval merging (`run`: `pr.from_string(...).merge(by='Sample')`)

pyranges is a collaborator (not under `src/`); its per-sample interval
merge is modelled from the spec: sort the fragments of a sample by start,
keep a running `(start, end)`, extend `end` while the next fragment's
start is `<= current end`, otherwise emit and start a new interval. -/

/-- Order on interval fragments by start coordinate. -/
def startLe (a b : Nat × Nat) : Prop := a.1 ≤ b.1

instance : DecidableRel startLe := fun a b => Nat.decLe a.1 b.1

instance : IsTotal (Nat × Nat) startLe := ⟨fun a b => Nat.le_total a.1 b.1⟩

instance : IsTrans (Nat × Nat) startLe := ⟨fun _ _ _ => Nat.le_trans⟩

/-- Modelled from the spec: the running pass of the standard interval
merge over start-sorted fragments. -/
def mergeRun : Nat × Nat → List (Nat × Nat) → List (Nat × Nat)
  | cur, [] => [cur]
  | cur, iv :: rest =>
    if iv.1 ≤ cur.2 then mergeRun (cur.1, max cur.2 iv.2) rest
    else cur :: mergeRun iv rest

/-- Modelled from the spec: merge a start-sorted fragment list. -/
def mergeSorted : List (Nat × Nat) → List (Nat × Nat)
  | [] => []
  | iv :: rest => mergeRun iv rest

/-- Modelled from the spec: pyranges' interval merge — sort by start,
then coalesce every run of touching or overlapping fragments. -/
def mergeIntervals (l : List (Nat × Nat)) : List (Nat × Nat) :=
  mergeSorted (List.insertionSort startLe l)

/-- The fragments of one sample among the emitted tracts. -/
def tractIntervals (tracts : List Tract) (s : String) : List (Nat × Nat) :=
  (tracts.filter (fun t => t.sample == s)).map (fun t => (t.start, t.stop))

/-- The merged output for one sample: `merge(by='Sample')` restricted to
that sample. -/
def mergedTractsFor (tracts : List Tract) (s : String) : List (Nat × Nat) :=
  mergeIntervals (tractIntervals tracts s)

/-- A position is covered by a fragment list when it lies in one of its
half-open intervals. -/
def covers (l : List (Nat × Nat)) (x : Nat) : Prop :=
  ∃ iv ∈ l, iv.1 ≤ x ∧ x < iv.2

theorem covers_cons {a : Nat × Nat} {l : List (Nat × Nat)} {x : Nat} :
    covers (a :: l) x ↔ (a.1 ≤ x ∧ x < a.2) ∨ covers l x := by
  unfold covers
  simp [List.mem_cons, or_and_right, exists_or]

theorem mergeRun_props : ∀ (l : List (Nat × Nat)) (cur : Nat × Nat),
    List.Pairwise startLe l →
    (∀ iv ∈ l, cur.1 ≤ iv.1) →
    List.Pairwise (fun a b => a.2 < b.1) (mergeRun cur l) ∧
    (∀ out ∈ mergeRun cur l, cur.1 ≤ out.1) ∧
    (∀ x, covers (mergeRun cur l) x ↔ (cur.1 ≤ x ∧ x < cur.2) ∨ covers l x)
  | [], cur, _, _ => by
    rw [mergeRun]
    refine ⟨by simp, ?_, ?_⟩
    · intro out hout
      rw [List.mem_singleton] at hout
      rw [hout]
    · intro x
      rw [covers_cons]
  | iv :: rest, cur, hsorted, hge => by
    have hrest : List.Pairwise startLe rest := (List.pairwise_cons.mp hsorted).2
    have hhead : ∀ iv' ∈ rest, iv.1 ≤ iv'.1 := (List.pairwise_cons.mp hsorted).1
    rw [mergeRun]
    by_cases hm : iv.1 ≤ cur.2
    · rw [if_pos hm]
      have hcur : cur.1 ≤ iv.1 := hge iv (List.mem_cons_self _ _)
      obtain ⟨hp, hs, hc⟩ := mergeRun_props rest (cur.1, max cur.2 iv.2) hrest
        (fun iv' hiv' => le_trans hcur (hhead iv' hiv'))
      refine ⟨hp, hs, ?_⟩
      intro x
      rw [hc x, covers_cons]
      have hmax : (cur.1 ≤ x ∧ x < max cur.2 iv.2) ↔
          (cur.1 ≤ x ∧ x < cur.2) ∨ (iv.1 ≤ x ∧ x < iv.2) := by
        rw [Nat.max_def]
        split_ifs <;> omega
      rw [hmax, or_assoc]
    · rw [if_neg hm]
      obtain ⟨hp, hs, hc⟩ := mergeRun_props rest iv hrest hhead
      refine ⟨?_, ?_, ?_⟩
      · rw [List.pairwise_cons]
        exact ⟨fun out hout => by
          have := hs out hout
          omega, hp⟩
      · intro out hout
        rcases List.mem_cons.mp hout with h | h
        · rw [h]
        · exact le_trans (le_trans (hge iv (List.mem_cons_self _ _)) (hs out h))
            (le_refl _)
      · intro x
        rw [covers_cons, hc x, covers_cons]

theorem mergeIntervals_props (l : List (Nat × Nat)) :
    List.Pairwise (fun a b => a.2 < b.1) (mergeIntervals l) ∧
    (∀ x, covers (mergeIntervals l) x ↔ covers l x) := by
  unfold mergeIntervals
  have hperm := List.perm_insertionSort startLe l
  have hsorted := List.sorted_insertionSort startLe l
  have hcovperm : ∀ x, covers (List.insertionSort startLe l) x ↔ covers l x := by
    intro x
    unfold covers
    constructor
    · rintro ⟨iv, hiv, hx⟩; exact ⟨iv, hperm.mem_iff.mp hiv, hx⟩
    · rintro ⟨iv, hiv, hx⟩; exact ⟨iv, hperm.mem_iff.mpr hiv, hx⟩
  cases hsort : List.insertionSort startLe l with
  | nil =>
    rw [hsort] at hcovperm
    refine ⟨List.Pairwise.nil, ?_⟩
    intro x
    rw [mergeSorted]
    exact hcovperm x
  | cons cur rest =>
    rw [hsort] at hcovperm hsorted
    rw [mergeSorted]
    obtain ⟨hp, -, hc⟩ := mergeRun_props rest cur
      (List.pairwise_cons.mp hsorted).2 (List.pairwise_cons.mp hsorted).1
    refine ⟨hp, ?_⟩
    intro x
    rw [hc x, ← covers_cons]
    exact hcovperm x

/-- C3: for every sample, the merged output of the per-sample interval
merge is a separated family — no two merged tracts of the sample overlap
or touch (gap `≥ 1`) — and it covers exactly the positions covered by the
raw emitted fragments of that sample. -/
theorem merged_tracts_disjoint (tracts : List Tract) (s : String) :
    List.Pairwise (fun a b => a.2 < b.1) (mergedTractsFor tracts s) ∧
    ∀ x : Nat, covers (mergedTractsFor tracts s) x ↔
      covers (tractIntervals tracts s) x :=
  mergeIntervals_props (tractIntervals tracts s)

/-! ## The tract file (`MsprimeSimulator.run`)

`run` writes the merged tracts with
`if true_tracts.empty: open(bed_file, 'w').close()
 else: true_tracts.to_csv(bed_file, sep="\t", header=False)`:
an empty merge produces a present, zero-byte file, and a non-empty merge
is written **without** a header line (`header=False`). -/

/-- One `to_csv` row: chromosome (the literal `'1'`), start, end, sample,
tab-separated (row layout modelled from the spec for pyranges'
`to_csv(sep="\t", header=False)`). -/
def tractRow (t : Tract) : String :=
  "1\t" ++ toString t.start ++ "\t" ++ toString t.stop ++ "\t" ++ t.sample ++ "\n"

/-- The bytes written to the tract file for a merged tract set. -/
def tractFileContent (merged : List Tract) : String :=
  if merged.isEmpty then "" else String.join (merged.map tractRow)

/-- C5 counterexample: for a non-empty merged tract set the file does not
begin with the header line `Chromosome\tStart\tEnd\tSample` — the claim's
described content differs from what is written. -/
theorem tract_file_header_counterexample :
    ¬ (tractFileContent [⟨2000, 5000, "tsk_0"⟩] =
      "Chromosome\tStart\tEnd\tSample\n" ++
        String.join ([(⟨2000, 5000, "tsk_0"⟩ : Tract)].map tractRow)) := by
  decide

/-- C5 (amended): a non-empty merged tract set is written as tab-separated
rows, one per merged tract, with no header line; an empty merged tract set
yields a present, zero-byte file. -/
theorem tract_file_content_amended (merged : List Tract) :
    (merged = [] → tractFileContent merged = "") ∧
    (merged ≠ [] →
      tractFileContent merged = String.join (merged.map tractRow) ∧
      tractFileContent merged ≠
        "Chromosome\tStart\tEnd\tSample\n" ++
          String.join (merged.map tractRow)) := by
  constructor
  · intro h
    subst h
    rfl
  · intro h
    have hne : ¬ merged.isEmpty = true := by
      intro hh
      exact h (List.isEmpty_iff.mp hh)
    rw [tractFileContent, if_neg hne]
    refine ⟨rfl, ?_⟩
    intro heq
    have hlen := congrArg String.length heq
    rw [String.length_append] at hlen
    have hhdr : ("Chromosome\tStart\tEnd\tSample\n" : String).length = 28 := rfl
    omega

theorem tract_file_content_amended_witness :
    tractFileContent [] = "" ∧
    tractFileContent [⟨2000, 5000, "tsk_0"⟩] =
      String.join ([(⟨2000, 5000, "tsk_0"⟩ : Tract)].map tractRow) :=
  ⟨(tract_file_content_amended []).1 rfl,
    ((tract_file_content_amended [⟨2000, 5000, "tsk_0"⟩]).2 (by simp)).1⟩

/-! ## The record merge (`LRTrainingDataSimulator.run`)

`run` merges labels into feature records with

    lookup = {item['Sample']: item for item in labels}
    merged_list = [{**item, **lookup[item['Sample']]} for item in features]

Python dictionaries are embedded as insertion-ordered association lists
with in-place update on existing keys, which is exactly the `{**a, **b}`
semantics; the value type covers the strings and numbers the records
hold. -/

/-- A Python value held in a record dictionary. -/
inductive PyVal where
  | int : Int → PyVal
  | str : String → PyVal
deriving DecidableEq, Repr

/-- A Python dict with string keys: insertion-ordered association list
without duplicate keys once built through `dictSet`. -/
abbrev PyDict := List (String × PyVal)

/-- `d[key]` as an option. -/
def dictGet : PyDict → String → Option PyVal
  | [], _ => none
  | (k, v) :: rest, key => if k = key then some v else dictGet rest key

/-- `d[key] = v`: update in place when the key exists, append otherwise. -/
def dictSet : PyDict → String → PyVal → PyDict
  | [], k, v => [(k, v)]
  | (k', v') :: rest, k, v =>
    if k' = k then (k', v) :: rest else (k', v') :: dictSet rest k v

/-- `{**a, **b}`: start from `a` and write every entry of `b`, later
entries overriding earlier ones. -/
def dictMerge (a b : PyDict) : PyDict :=
  b.foldl (fun d kv => dictSet d kv.1 kv.2) a

/-- The label lookup table: a dict keyed by the label records' `Sample`
values. -/
def lookupGet : List (PyVal × PyDict) → PyVal → Option PyDict
  | [], _ => none
  | (k, v) :: rest, key => if k = key then some v else lookupGet rest key

def lookupSet : List (PyVal × PyDict) → PyVal → PyDict → List (PyVal × PyDict)
  | [], k, v => [(k, v)]
  | (k', v') :: rest, k, v =>
    if k' = k then (k', v) :: rest else (k', v') :: lookupSet rest k v

/-- `{item['Sample']: item for item in labels}`: left-to-right, later
items override; `item['Sample']` on a record without the key raises. -/
def buildLookup (labels : List PyDict) : Option (List (PyVal × PyDict)) :=
  labels.foldlM
    (fun tbl d => (dictGet d "Sample").map (fun s => lookupSet tbl s d)) []

/-- `{**item, **lookup[item['Sample']]}` for one feature record:
`KeyError` (modelled as the error case) when the feature has no `Sample`
key or its sample has no label. -/
def mergeOne (tbl : List (PyVal × PyDict)) (f : PyDict) : Except Unit PyDict :=
  match dictGet f "Sample" with
  | none => .error ()
  | some s =>
    match lookupGet tbl s with
    | none => .error ()
    | some lab => .ok (dictMerge f lab)

/-- The record merge of `LRTrainingDataSimulator.run`. -/
def mergeRecords (features labels : List PyDict) : Except Unit (List PyDict) :=
  match buildLookup labels with
  | none => .error ()
  | some tbl => features.mapM (mergeOne tbl)

/-- A dict built through `dictSet` has pairwise-distinct keys. -/
def DictKeysNodup (d : PyDict) : Prop :=
  List.Pairwise (fun x y => x.1 ≠ y.1) d

theorem dictGet_dictSet (d : PyDict) (k : String) (v : PyVal) (key : String) :
    dictGet (dictSet d k v) key = if k = key then some v else dictGet d key := by
  induction d with
  | nil => rfl
  | cons p rest ih =>
    obtain ⟨k0, v0⟩ := p
    rw [dictSet]
    by_cases h0 : k0 = k
    · rw [if_pos h0]
      subst h0
      rw [dictGet, dictGet]
      split_ifs <;> rfl
    · rw [if_neg h0, dictGet, dictGet, ih]
      by_cases h1 : k0 = key
      · subst h1
        rw [if_pos rfl, if_pos rfl, if_neg (fun h => h0 h.symm)]
      · rw [if_neg h1, if_neg h1]

theorem lookupGet_lookupSet (tbl : List (PyVal × PyDict)) (k : PyVal)
    (v : PyDict) (key : PyVal) :
    lookupGet (lookupSet tbl k v) key =
      if k = key then some v else lookupGet tbl key := by
  induction tbl with
  | nil => rfl
  | cons p rest ih =>
    obtain ⟨k0, v0⟩ := p
    rw [lookupSet]
    by_cases h0 : k0 = k
    · rw [if_pos h0]
      subst h0
      rw [lookupGet, lookupGet]
      split_ifs <;> rfl
    · rw [if_neg h0, lookupGet, lookupGet, ih]
      by_cases h1 : k0 = key
      · subst h1
        rw [if_pos rfl, if_pos rfl, if_neg (fun h => h0 h.symm)]
      · rw [if_neg h1, if_neg h1]

theorem dictGet_eq_none_of_keys (d : PyDict) (key : String)
    (h : ∀ p ∈ d, p.1 ≠ key) : dictGet d key = none := by
  induction d with
  | nil => rfl
  | cons p rest ih =>
    rw [dictGet]
    rw [if_neg (h p (List.mem_cons_self _ _))]
    exact ih (fun q hq => h q (List.mem_cons_of_mem p hq))

/-- `{**a, **b}` looks keys up in `b` first, then in `a`: the merged dict
is the key-union with `b` overriding. -/
theorem dictGet_dictMerge (a b : PyDict) (hb : DictKeysNodup b) (key : String) :
    dictGet (dictMerge a b) key = (dictGet b key).or (dictGet a key) := by
  induction b generalizing a with
  | nil => rw [dictMerge]; rfl
  | cons p rest ih =>
    obtain ⟨kb, vb⟩ := p
    have hmerge : dictMerge a ((kb, vb) :: rest) =
        dictMerge (dictSet a kb vb) rest := rfl
    rw [hmerge, ih (dictSet a kb vb) (List.pairwise_cons.mp hb).2, dictGet]
    by_cases hk : kb = key
    · subst hk
      have hrest : dictGet rest kb = none :=
        dictGet_eq_none_of_keys rest kb
          (fun q hq => Ne.symm ((List.pairwise_cons.mp hb).1 q hq))
      rw [hrest, if_pos rfl, dictGet_dictSet, if_pos rfl]
      rfl
    · rw [if_neg hk, dictGet_dictSet, if_neg hk]

/-- The lookup table built from labels with `Sample` keys: construction
succeeds, and a sample is present in the table exactly when some label
record carries it; every table entry is one of the label records. -/
theorem buildLookup_go (labels : List PyDict)
    (hl : ∀ d ∈ labels, (dictGet d "Sample").isSome = true) :
    ∀ tbl0 : List (PyVal × PyDict),
    ∃ tbl, labels.foldlM (fun tbl d => (dictGet d "Sample").map
        (fun s => lookupSet tbl s d)) tbl0 = some tbl ∧
      (∀ s, (lookupGet tbl s).isSome = true ↔
        ((lookupGet tbl0 s).isSome = true ∨
          ∃ lab ∈ labels, dictGet lab "Sample" = some s)) ∧
      (∀ s lab, lookupGet tbl s = some lab →
        (lookupGet tbl0 s = some lab ∨
          (lab ∈ labels ∧ dictGet lab "Sample" = some s))) := by
  induction labels with
  | nil =>
    intro tbl0
    refine ⟨tbl0, rfl, ?_, ?_⟩
    · intro s; simp
    · intro s lab h; exact Or.inl h
  | cons d rest ih =>
    intro tbl0
    obtain ⟨s0, hs0⟩ := Option.isSome_iff_exists.mp
      (hl d (List.mem_cons_self _ _))
    obtain ⟨tbl, htbl, hiff, hmem⟩ :=
      ih (fun q hq => hl q (List.mem_cons_of_mem d hq)) (lookupSet tbl0 s0 d)
    refine ⟨tbl, ?_, ?_, ?_⟩
    · rw [List.foldlM_cons, hs0]
      exact htbl
    · intro s
      rw [hiff s, lookupGet_lookupSet]
      by_cases hss : s0 = s
      · subst hss
        rw [if_pos rfl]
        constructor
        · intro _
          exact Or.inr ⟨d, List.mem_cons_self _ _, hs0⟩
        · intro _
          exact Or.inl rfl
      · rw [if_neg hss]
        constructor
        · rintro (h | ⟨lab, hlab, hslab⟩)
          · exact Or.inl h
          · exact Or.inr ⟨lab, List.mem_cons_of_mem d hlab, hslab⟩
        · rintro (h | ⟨lab, hlab, hslab⟩)
          · exact Or.inl h
          · rcases List.mem_cons.mp hlab with hd | hr
            · subst hd
              rw [hs0] at hslab
              injection hslab with hslab
              exact absurd hslab hss
            · exact Or.inr ⟨lab, hr, hslab⟩
    · intro s lab h
      rcases hmem s lab h with h' | h'
      · rw [lookupGet_lookupSet] at h'
        by_cases hss : s0 = s
        · subst hss
          rw [if_pos rfl] at h'
          injection h' with h'
          subst h'
          exact Or.inr ⟨List.mem_cons_self _ _, hs0⟩
        · rw [if_neg hss] at h'
          exact Or.inl h'
      · exact Or.inr ⟨List.mem_cons_of_mem d h'.1, h'.2⟩

theorem mapM_ok_iff (g : PyDict → Except Unit PyDict) :
    ∀ l : List PyDict,
      (∃ out, l.mapM g = .ok out) ↔ ∀ f ∈ l, ∃ r, g f = .ok r := by
  intro l
  induction l with
  | nil =>
    constructor
    · intro _ f hf; cases hf
    · intro _; exact ⟨[], rfl⟩
  | cons f rest ih =>
    rw [List.mapM_cons]
    constructor
    · rintro ⟨out, hout⟩ q hq
      cases hg : g f with
      | error e => rw [hg] at hout; cases hout
      | ok r =>
        rw [hg] at hout
        cases hrest : rest.mapM g with
        | error e =>
          rw [hrest] at hout
          cases hout
        | ok rs =>
          rcases List.mem_cons.mp hq with h | h
          · subst h; exact ⟨r, hg⟩
          · exact ih.mp ⟨rs, hrest⟩ q h
    · intro hall
      obtain ⟨r, hr⟩ := hall f (List.mem_cons_self _ _)
      obtain ⟨rs, hrs⟩ := ih.mpr (fun q hq => hall q (List.mem_cons_of_mem f hq))
      exact ⟨r :: rs, by rw [hr, hrs]; rfl⟩

theorem mapM_ok_zip (g : PyDict → Except Unit PyDict) :
    ∀ (l : List PyDict) (out : List PyDict), l.mapM g = .ok out →
      out.length = l.length ∧ ∀ p ∈ l.zip out, g p.1 = .ok p.2 := by
  intro l
  induction l with
  | nil =>
    intro out h
    injection h with h
    subst h
    exact ⟨rfl, fun p hp => by cases hp⟩
  | cons f rest ih =>
    intro out h
    rw [List.mapM_cons] at h
    cases hg : g f with
    | error e => rw [hg] at h; cases h
    | ok r =>
      rw [hg] at h
      cases hrest : rest.mapM g with
      | error e => rw [hrest] at h; cases h
      | ok rs =>
        rw [hrest] at h
        injection h with h
        subst h
        obtain ⟨hlen, hzip⟩ := ih rs hrest
        refine ⟨by simp [hlen], ?_⟩
        intro p hp
        rcases List.mem_cons.mp hp with h | h
        · subst h; exact hg
        · exact hzip p h

theorem mergeOne_eq (tbl : List (PyVal × PyDict)) (f : PyDict) (s : PyVal)
    (hs : dictGet f "Sample" = some s) :
    mergeOne tbl f = (match lookupGet tbl s with
      | none => Except.error ()
      | some lab => Except.ok (dictMerge f lab)) := by
  rw [mergeOne, hs]

/-- C10: the record merge of `LRTrainingDataSimulator.run` is total
exactly when every `Sample` value occurring in the feature records also
occurs in the labeler's output — a feature whose sample has no label makes
the lookup fail (`KeyError`) rather than being omitted — and on success it
returns exactly one merged record per feature record, each the key-union
of the feature dict and its sample's label dict, the label entries
overriding. -/
theorem lr_record_merge (features labels : List PyDict)
    (hl : ∀ d ∈ labels, (dictGet d "Sample").isSome = true)
    (hf : ∀ d ∈ features, (dictGet d "Sample").isSome = true) :
    ((∃ out, mergeRecords features labels = .ok out) ↔
      ∀ d ∈ features, ∃ lab ∈ labels,
        dictGet lab "Sample" = dictGet d "Sample") ∧
    (∀ out, mergeRecords features labels = .ok out →
      out.length = features.length ∧
      ∀ p ∈ features.zip out, ∃ lab ∈ labels,
        dictGet lab "Sample" = dictGet p.1 "Sample" ∧
        p.2 = dictMerge p.1 lab) ∧
    (∀ a b : PyDict, DictKeysNodup b → ∀ k,
      dictGet (dictMerge a b) k = (dictGet b k).or (dictGet a k)) := by
  obtain ⟨tbl, htbl, hiff, hmem⟩ := buildLookup_go labels hl []
  have hbl : buildLookup labels = some tbl := htbl
  have hmr : mergeRecords features labels = features.mapM (mergeOne tbl) := by
    rw [mergeRecords, hbl]
  have hone : ∀ d ∈ features, ((∃ r, mergeOne tbl d = .ok r) ↔
      ∃ lab ∈ labels, dictGet lab "Sample" = dictGet d "Sample") := by
    intro d hd
    obtain ⟨s, hs⟩ := Option.isSome_iff_exists.mp (hf d hd)
    rw [hs]
    constructor
    · rintro ⟨r, hr⟩
      rw [mergeOne_eq tbl d s hs] at hr
      cases hlk : lookupGet tbl s with
      | none => rw [hlk] at hr; simp at hr
      | some lab =>
        have hsome : (lookupGet tbl s).isSome = true := by rw [hlk]; rfl
        rcases (hiff s).mp hsome with hfalse | hex
        · rw [lookupGet] at hfalse; cases hfalse
        · exact hex
    · rintro ⟨lab, hlab, hslab⟩
      have hsome : (lookupGet tbl s).isSome = true :=
        (hiff s).mpr (Or.inr ⟨lab, hlab, hslab⟩)
      obtain ⟨lab', hlab'⟩ := Option.isSome_iff_exists.mp hsome
      exact ⟨dictMerge d lab', by rw [mergeOne_eq tbl d s hs, hlab']⟩
  refine ⟨?_, ?_, fun a b hb k => dictGet_dictMerge a b hb k⟩
  · rw [hmr, mapM_ok_iff (mergeOne tbl) features]
    exact ⟨fun h d hd => (hone d hd).mp (h d hd),
      fun h d hd => (hone d hd).mpr (h d hd)⟩
  · intro out hout
    rw [hmr] at hout
    obtain ⟨hlen, hzip⟩ := mapM_ok_zip (mergeOne tbl) features out hout
    refine ⟨hlen, ?_⟩
    intro p hp
    obtain ⟨p1, p2⟩ := p
    have hg := hzip (p1, p2) hp
    have hpmem : p1 ∈ features := (List.mem_zip hp).1
    obtain ⟨s, hs⟩ := Option.isSome_iff_exists.mp (hf p1 hpmem)
    rw [mergeOne_eq tbl p1 s hs] at hg
    cases hlk : lookupGet tbl s with
    | none => rw [hlk] at hg; simp at hg
    | some lab =>
      rw [hlk] at hg
      rw [show (match some lab with
        | none => (Except.error () : Except Unit PyDict)
        | some lab => Except.ok (dictMerge p1 lab)) =
          Except.ok (dictMerge p1 lab) from rfl] at hg
      injection hg with hg
      rcases hmem s lab hlk with hfalse | ⟨hlabmem, hslab⟩
      · rw [lookupGet] at hfalse; cases hfalse
      · exact ⟨lab, hlabmem, by rw [hslab, hs], hg.symm⟩

def c10Labels : List PyDict :=
  [[("Sample", .str "tsk_0"), ("Label", .int 1)]]

def c10Features : List PyDict :=
  [[("Chromosome", .str "1"), ("Sample", .str "tsk_0"), ("Start", .int 0)]]

theorem lr_record_merge_witness :
    ((∃ out, mergeRecords c10Features c10Labels = .ok out) ↔
      ∀ d ∈ c10Features, ∃ lab ∈ c10Labels,
        dictGet lab "Sample" = dictGet d "Sample") ∧
    (∀ out, mergeRecords c10Features c10Labels = .ok out →
      out.length = c10Features.length ∧
      ∀ p ∈ c10Features.zip out, ∃ lab ∈ c10Labels,
        dictGet lab "Sample" = dictGet p.1 "Sample" ∧
        p.2 = dictMerge p.1 lab) ∧
    (∀ a b : PyDict, DictKeysNodup b → ∀ k,
      dictGet (dictMerge a b) k = (dictGet b k).or (dictGet a k)) :=
  lr_record_merge c10Features c10Labels (by decide) (by decide)
